import Mathlib

/-!
Verification development for the YouTube-summarizer repository (src/app.py).

Strings are modelled as `List Char` (Python `str`).  Each definition below is a
shallow embedding of a function of src/app.py, or of a Python standard-library
function that src/app.py calls (`urllib.parse.urlparse`, `urllib.parse.parse_qs`,
`str.strip`, and the concrete `re.sub` calls of `extract_text_from_vtt`, each of
which is embedded as a dedicated scanner for its fixed pattern).  External
effects (the yt-dlp download, the youtube-transcript-api service, Streamlit
output) are modelled as explicit parameters or, when the source makes them
unreachable, as the exceptional outcome the source produces.
-/

/-- Characters of the ASCII range of Python's whitespace class `\s`
(space, tab, newline, carriage return, vertical tab, form feed).
Non-ASCII Unicode whitespace is not modelled; no theorem below depends on it. -/
def isPySpace (c : Char) : Bool :=
  c == ' ' || c == '\t' || c == '\n' || c == '\r' || c == '\x0b' || c == '\x0c'

/-- Python `s.split(sep, 1)` restricted to a one-character separator:
`none` when the separator does not occur, otherwise the parts before and
after its first occurrence. -/
def splitAtFirst (sep : Char) : List Char → Option (List Char × List Char)
  | [] => none
  | c :: cs =>
    if c == sep then some ([], cs)
    else (splitAtFirst sep cs).map (fun pr => (c :: pr.1, pr.2))

/-- Python `s.split(sep)` for a one-character separator: always at least one
field, the empty string splitting to `[""]`. -/
def splitOnChar (sep : Char) : List Char → List (List Char)
  | [] => [[]]
  | c :: cs =>
    if c == sep then [] :: splitOnChar sep cs
    else
      match splitOnChar sep cs with
      | [] => [[c]]
      | f :: r => (c :: f) :: r

/-- Python substring containment `needle in hay`. -/
def containsSub (hay needle : List Char) : Bool :=
  match hay with
  | [] => needle.isEmpty
  | _ :: t => needle.isPrefixOf hay || containsSub t needle

/-- Python `s.startswith(p)`. -/
def pyStartsWith (p l : List Char) : Bool := List.isPrefixOf p l

/-- Python `" ".join(xs)`. -/
def joinSpace : List (List Char) → List Char
  | [] => []
  | [x] => x
  | x :: y :: r => x ++ ' ' :: joinSpace (y :: r)

/-- Left strip of whitespace, as in Python `str.strip` (left half). -/
def ltrimWS (l : List Char) : List Char := l.dropWhile isPySpace

/-- Right strip of whitespace, as in Python `str.strip` (right half). -/
def rtrimWS (l : List Char) : List Char := (l.reverse.dropWhile isPySpace).reverse

/-- Python `str.strip()` (ASCII whitespace, see `isPySpace`). -/
def stripWS (l : List Char) : List Char := rtrimWS (ltrimWS l)

/-! URL parsing: embedding of `urllib.parse.urlparse` as used by
`extract_video_id` (src/app.py lines 31-47). -/

/-- Result quintuple of `urllib.parse.urlsplit` (the `params` component of
`urlparse` is split off `path` separately, see `pyUrlparse`). -/
structure URLParts where
  scheme : List Char
  netloc : List Char
  path : List Char
  query : List Char
  fragment : List Char
deriving DecidableEq

/-- Characters CPython accepts inside a URL scheme. -/
def schemeChar (c : Char) : Bool :=
  c.isAlpha || c.isDigit || c == '+' || c == '-' || c == '.'

/-- Scheme-splitting step of CPython `urlsplit`: the text before the first
colon becomes the (lowercased) scheme when it is a nonempty run of scheme
characters starting with an ASCII letter; otherwise the URL is unchanged. -/
def pySplitScheme (url : List Char) : List Char × List Char :=
  match splitAtFirst ':' url with
  | none => ([], url)
  | some (pre, rest) =>
    match pre with
    | [] => ([], url)
    | c :: cs =>
      if c.isAlpha && (c :: cs).all schemeChar then ((c :: cs).map Char.toLower, rest)
      else ([], url)

/-- Characters ending the netloc in CPython `_splitnetloc`. -/
def netlocDelim (c : Char) : Bool := c == '/' || c == '?' || c == '#'

/-- Embedding of CPython `urlsplit`.  `none` models the `ValueError` raised on
a netloc whose square brackets are unbalanced (the full bracketed-host IP
validation of newer CPython is not modelled; no theorem below involves a
bracketed netloc, and `extract_video_id` turns any such exception into `None`
anyway).  Leading C0-control/space characters are stripped and tab, CR and LF
are removed, as in CPython. -/
def pyUrlsplit (url0 : List Char) : Option URLParts :=
  let url1 := url0.dropWhile (fun c => c.toNat ≤ 32)
  let url2 := url1.filter (fun c => !(c == '\t' || c == '\r' || c == '\n'))
  let (scheme, rest1) := pySplitScheme url2
  let hasNetloc := rest1.take 2 == ['/', '/']
  let netloc := if hasNetloc then (rest1.drop 2).takeWhile (fun c => !netlocDelim c) else []
  let rest2 := if hasNetloc then (rest1.drop 2).dropWhile (fun c => !netlocDelim c) else rest1
  if (netloc.contains '[' && !netloc.contains ']') ||
     (netloc.contains ']' && !netloc.contains '[') then
    none
  else
    let (rest3, fragment) :=
      match splitAtFirst '#' rest2 with
      | some pr => pr
      | none => (rest2, [])
    let (path, query) :=
      match splitAtFirst '?' rest3 with
      | some pr => pr
      | none => (rest3, [])
    some ⟨scheme, netloc, path, query, fragment⟩

/-- CPython `_splitparams`: split `;params` off the last path segment. -/
def pySplitParams (p : List Char) : List Char × List Char :=
  if p.contains '/' then
    let pre := (p.reverse.dropWhile (fun c => !(c == '/'))).reverse
    let aft := (p.reverse.takeWhile (fun c => !(c == '/'))).reverse
    match splitAtFirst ';' aft with
    | none => (p, [])
    | some (a, b) => (pre ++ a, b)
  else
    match splitAtFirst ';' p with
    | none => (p, [])
    | some (a, b) => (a, b)

/-- Embedding of `urllib.parse.urlparse` (scheme, netloc, path-without-params,
query, fragment; the params component itself is unused by src/app.py). -/
def pyUrlparse (url : List Char) : Option URLParts :=
  (pyUrlsplit url).map (fun p => { p with path := (pySplitParams p.path).1 })

/-! Query-string parsing: embedding of `urllib.parse.parse_qs` with its
default arguments, as called on line 42 of src/app.py. -/

/-- Hexadecimal digit test, as in CPython `unquote`. -/
def isHexDig (c : Char) : Bool :=
  c.isDigit || ('a' ≤ c && c ≤ 'f') || ('A' ≤ c && c ≤ 'F')

/-- Value of a hexadecimal digit. -/
def hexVal (c : Char) : Nat :=
  if c.isDigit then c.toNat - 48
  else if 'a' ≤ c && c ≤ 'f' then c.toNat - 87
  else c.toNat - 55

/-- One percent-escape segment of CPython `unquote`: the two leading
characters of a segment following a `%` are decoded when they form a hex
pair, otherwise the `%` is kept verbatim, exactly as in CPython's
`unquote_to_bytes` loop. -/
def pctSeg (seg : List Char) : List Char :=
  match seg with
  | a :: b :: rest =>
    if isHexDig a && isHexDig b then Char.ofNat (16 * hexVal a + hexVal b) :: rest
    else '%' :: seg
  | _ => '%' :: seg

/-- Percent-decoding of CPython `unquote`, which splits on `%` and decodes
each following segment (`pctSeg`).  Multi-byte UTF-8 sequences are decoded
bytewise here (identical to CPython on ASCII bytes; no theorem below decodes
a byte above 127). -/
def pctDecode (l : List Char) : List Char :=
  match splitOnChar '%' l with
  | [] => []
  | first :: bits => first ++ (bits.map pctSeg).flatten

/-- CPython `unquote_plus`: plus signs become spaces, then percent-decoding. -/
def unquote_plus (s : List Char) : List Char :=
  pctDecode (s.map (fun c => if c == '+' then ' ' else c))

/-- Field handling of CPython `parse_qsl` with default arguments: empty
fields, fields without `=`, and fields with an empty value are dropped;
names and values are `unquote_plus`-decoded. -/
def procField (field : List Char) : Option (List Char × List Char) :=
  if field.isEmpty then none
  else
    match splitAtFirst '=' field with
    | none => none
    | some (n, v) =>
      if v.isEmpty then none else some (unquote_plus n, unquote_plus v)

/-- Embedding of CPython `parse_qsl` (default separator `&`). -/
def pyParseQsl (qs : List Char) : List (List Char × List Char) :=
  (splitOnChar '&' qs).filterMap procField

/-- Values of `parse_qs(qs).get("v")`: all values whose decoded name is `v`,
in order; `get` returns `None` exactly when this list is empty. -/
def parse_qs_v (qs : List Char) : List (List Char) :=
  ((pyParseQsl qs).filter (fun pr => pr.1 == ("v".toList))).map (fun pr => pr.2)

/-- Embedding of `extract_video_id` (src/app.py lines 31-47).  The source
wraps its body in `try/except Exception: return None`; the only modelled
exception source is `urlparse` (see `pyUrlsplit`), so the `none` branch of
`pyUrlparse` lands in the same `none` result the handler produces.  Note the
source tests hosts by substring containment (`'youtu.be' in parsed_url.netloc`),
not by host equality. -/
def extract_video_id (url : List Char) : Option (List Char) :=
  match pyUrlparse url with
  | none => none
  | some p =>
    if containsSub p.netloc ("youtu.be".toList) then
      let video_id := p.path.drop 1
      if video_id.isEmpty then none else some video_id
    else if containsSub p.netloc ("youtube.com".toList) ||
            containsSub p.netloc ("www.youtube.com".toList) then
      match parse_qs_v p.query with
      | [] => none
      | v :: _ => some v
    else none

/-! Caption markup normalizer: embedding of `extract_text_from_vtt`
(src/app.py lines 106-134).  The function's file I/O is modelled away: the
embedding receives the file content directly (the `except` branch for read
errors is therefore not part of the model).  Each `re.sub` call is embedded
as a left-to-right scanner for its fixed pattern, deleting or replacing
non-overlapping matches exactly as `re.sub` does. -/

/-- Matching of a list of single-character predicates against the prefix of a
string: `some rest` when every predicate accepts its character. -/
def eatPat : List (Char → Bool) → List Char → Option (List Char)
  | [], l => some l
  | _ :: _, [] => none
  | p :: ps, c :: cs => if p c then eatPat ps cs else none

/-- Predicate form of `eatPat` on an exact-length list. -/
def matchesPat : List (Char → Bool) → List Char → Bool
  | [], [] => true
  | p :: ps, c :: cs => p c && matchesPat ps cs
  | _, _ => false

/-- Character predicates of the regex `\d{2}:\d{2}:\d{2}\.\d{3}` (one clock
timestamp of the timestamp-range pattern on line 116). -/
def clockPat : List (Char → Bool) :=
  [Char.isDigit, Char.isDigit, (· == ':'), Char.isDigit, Char.isDigit, (· == ':'),
   Char.isDigit, Char.isDigit, (· == '.'), Char.isDigit, Char.isDigit, Char.isDigit]

/-- Character predicates of the literal ` --> ` between the two timestamps. -/
def arrowPat : List (Char → Bool) :=
  [(· == ' '), (· == '-'), (· == '-'), (· == '>'), (· == ' ')]

/-- Character predicates of the full timestamp-range regex of line 116. -/
def tsRangePat : List (Char → Bool) := clockPat ++ arrowPat ++ clockPat

/-- Test for a clock timestamp `\d{2}:\d{2}:\d{2}\.\d{3}` at the start of a
string (true only on an exact 12-character match). -/
def isClock12 (l : List Char) : Bool := matchesPat clockPat l

/-- Absence of a clock timestamp at every position of the string. -/
def clockFreeB : List Char → Bool
  | [] => true
  | c :: cs => !isClock12 ((c :: cs).take 12) && clockFreeB cs

/-- Generic `re.sub(pattern, '', text)` scanner: at each position, if the
matcher accepts a prefix it is deleted and scanning resumes after it,
otherwise the character is kept.  The fuel argument bounds recursion; every
matcher used below consumes at least one character, so `fuel = length` (see
`subDel`) always suffices and the `0` fallback is never reached. -/
def subDelF (m : List Char → Option (List Char)) : Nat → List Char → List Char
  | _, [] => []
  | 0, l => l
  | fuel + 1, c :: cs =>
    match m (c :: cs) with
    | some rest => subDelF m fuel rest
    | none => c :: subDelF m fuel cs

/-- Deleting scanner with sufficient fuel. -/
def subDel (m : List Char → Option (List Char)) (l : List Char) : List Char :=
  subDelF m l.length l

/-- Line 116: `re.sub(r'\d{2}:\d{2}:\d{2}\.\d{3} --> \d{2}:\d{2}:\d{2}\.\d{3}', '', content)`. -/
def subTs (l : List Char) : List Char := subDel (eatPat tsRangePat) l

/-- Scan for the first `>` of a tag body, as the regex `[^>]+>` does after at
least one non-`>` character has been consumed. -/
def tagTail : List Char → Option (List Char)
  | [] => none
  | c :: cs => if c == '>' then some cs else tagTail cs

/-- Matcher of the regex `<[^>]+>` of line 117: a `<`, at least one non-`>`
character, then the first `>`. -/
def matchTag : List Char → Option (List Char)
  | [] => none
  | c :: cs =>
    if c == '<' then
      match cs with
      | [] => none
      | d :: ds => if d == '>' then none else tagTail ds
    else none

/-- Line 117: `re.sub(r'<[^>]+>', '', text)`. -/
def subTags (l : List Char) : List Char := subDel matchTag l

/-- Literal of the header regex of line 118. -/
def headerLit : List Char := ("WEBVTT\n\n".toList)

/-- Matching of a literal string against the prefix of the input. -/
def eatLit : List Char → List Char → Option (List Char)
  | [], l => some l
  | _ :: _, [] => none
  | p :: ps, c :: cs => if p == c then eatLit ps cs else none

/-- Line 118: `re.sub(r'WEBVTT\n\n', '', text)`. -/
def subHeader (l : List Char) : List Char := subDel (eatLit headerLit) l

/-- Line 119: `re.sub(r'\n+', ' ', text)` — every maximal run of newlines
becomes one space. -/
def subNl : List Char → List Char
  | [] => []
  | [c] => if c == '\n' then [' '] else [c]
  | c :: d :: r =>
    if c == '\n' then
      if d == '\n' then subNl (d :: r)
      else ' ' :: subNl (d :: r)
    else c :: subNl (d :: r)

/-- Matcher of `\d+\n` after the leading digit has been checked: consume the
remaining digits, then require a newline. -/
def eatDigitsNl : List Char → Option (List Char)
  | [] => none
  | c :: cs => if c.isDigit then eatDigitsNl cs else if c == '\n' then some cs else none

/-- Matcher of the regex `\d+\n` (line-number pattern of line 120). -/
def matchLineNum : List Char → Option (List Char)
  | [] => none
  | c :: cs => if c.isDigit then eatDigitsNl cs else none

/-- Line 120: `re.sub(r'^\d+\n', '', text, flags=re.MULTILINE)`.  The `^`
anchor restricts matches to the string start and to positions directly after
a newline; the flag tracks whether the current position starts a line. -/
def subLineNumsF (m : List Char → Option (List Char)) : Nat → Bool → List Char → List Char
  | _, _, [] => []
  | 0, _, l => l
  | fuel + 1, atStart, c :: cs =>
    if atStart then
      match m (c :: cs) with
      | some rest => subLineNumsF m fuel true rest
      | none => c :: subLineNumsF m fuel (c == '\n') cs
    else c :: subLineNumsF m fuel (c == '\n') cs

/-- Line 120 with sufficient fuel and the string start counting as a line
start. -/
def subLineNums (l : List Char) : List Char := subLineNumsF matchLineNum l.length true l

/-- Line 123: `re.sub(r'\s+', ' ', text)` — every maximal whitespace run
becomes one space. -/
def collapseWs : List Char → List Char
  | [] => []
  | [c] => if isPySpace c then [' '] else [c]
  | c :: d :: r =>
    if isPySpace c then
      if isPySpace d then collapseWs (d :: r)
      else ' ' :: collapseWs (d :: r)
    else c :: collapseWs (d :: r)

/-- Cleaning pipeline of `extract_text_from_vtt` (lines 116-124), in source
order: timestamp ranges, inline tags, header token, newline runs, the
line-number pattern (note: applied after newline runs were already replaced
by spaces), whitespace collapse, strip. -/
def vttCleaned (content : List Char) : List Char :=
  stripWS (collapseWs (subLineNums (subNl (subHeader (subTags (subTs content))))))

/-- Message prefix of the too-short diagnostic of line 129. -/
def tooShortMsg : List Char := ("Error: Extracted text too short. VTT content: ".toList)

/-- Embedding of `extract_text_from_vtt` on file content (lines 109-131):
clean, then return the diagnostic (with a 500-character preview of the raw
input) when fewer than 10 characters remain. -/
def extract_text_from_vtt (content : List Char) : List Char :=
  let text := vttCleaned content
  if text.length < 10 then tooShortMsg ++ content.take 500 else text

/-- Flatness predicate used by the idempotence claim: no clock timestamp
anywhere, no `<` (so no inline tag can match), and no newline (so the header,
newline-run and line-number patterns cannot match). -/
def noCueMarkup (x : List Char) : Bool :=
  clockFreeB x && !x.contains '<' && !x.contains '\n'

/-! Transcript acquisition engine: embedding of `extract_transcript_with_ytdlp`
(src/app.py lines 50-104) and `extract_transcript_details` (lines 137-168). -/

/-- Exception kinds the secondary strategy (youtube-transcript-api) can raise.
All of them subclass Python `Exception`. -/
inductive PyExcKind where
  | videoUnavailable
  | transcriptsDisabled
  | other (msg : List Char)
deriving DecidableEq

/-- Outcome of the secondary strategy's service interaction: either the whole
`list_transcripts` / `find_transcript` / `fetch` sequence raises, or it yields
the cue texts in order. -/
inductive SecondaryOutcome where
  | raises (e : PyExcKind)
  | fetched (cues : List (List Char))
deriving DecidableEq

/-- Outcome of evaluating a Python expression: a value or a raised exception
carrying `str(e)`. -/
inductive PyEval (α : Type) where
  | ok (a : α)
  | raises (msg : List Char)

/-- ASCII apostrophe (kept out of string literals). -/
def quoteChar : Char := Char.ofNat 39

/-- Message of the `NameError` raised on line 62: `str(e)` is
`name 'os' is not defined`. -/
def nameErrorMsg : List Char :=
  ("name ".toList) ++ [quoteChar] ++ ("os".toList) ++ [quoteChar] ++ (" is not defined".toList)

/-- Evaluation of the `ydl_opts` dictionary literal (lines 56-63).  The
module-level imports of src/app.py (lines 1-5) are streamlit,
google.generativeai, youtube_transcript_api, urllib.parse and yt_dlp, and the
function body imports only tempfile (line 52); the name `os` used in
`os.path.join(temp_dir, ...)` (line 62) is never bound, so evaluating the
dictionary raises `NameError` before any network or subtitle work.  The
carrier is `Empty`: no value can be produced. -/
def ydl_opts_eval : PyEval Empty := .raises nameErrorMsg

/-- Embedding of `extract_transcript_with_ytdlp` (lines 50-104).  Execution
enters the `try`, imports tempfile, opens the temporary directory, and then
evaluates `ydl_opts` — which raises (see `ydl_opts_eval`), so the blanket
handler of line 103-104 returns the formatted failure string.  The remainder
of the body (lines 65-101) is unreachable, which the `Empty` carrier makes
exact. -/
def extract_transcript_with_ytdlp (video_url : List Char) : List Char :=
  match ydl_opts_eval with
  | .ok v => v.elim
  | .raises m => ("yt-dlp error: ".toList) ++ m

/-- Watch URL built on line 140: `f"https://www.youtube.com/watch?v={video_id}"`. -/
def watch_url (video_id : List Char) : List Char :=
  ("https://www.youtube.com/watch?v=".toList) ++ video_id

/-- Dispatch logic of `extract_transcript_details` after the primary result is
in hand (lines 146-161): accept the primary result when it is longer than 100
characters and starts with neither `Error` nor `No`; otherwise run the
secondary strategy inside the inner `try` (lines 152-161).  The inner handler
`except Exception as api_error` (line 159) catches every exception the
secondary strategy raises — including `VideoUnavailable` and
`TranscriptsDisabled`, which subclass `Exception` — and returns the composite
failure string of line 161, so the outer handlers of lines 163-166 are
unreachable from this block. -/
def transcript_dispatch (result : List Char) (secondary : SecondaryOutcome) : List Char :=
  if decide (100 < result.length) && !pyStartsWith ("Error".toList) result &&
     !pyStartsWith ("No".toList) result then
    result
  else
    match secondary with
    | .fetched cues => joinSpace cues
    | .raises _ => ("Both methods failed. yt-dlp result: ".toList) ++ result

/-- Embedding of `extract_transcript_details` (lines 137-168).  The secondary
strategy's service interaction is the explicit `secondary` parameter; nothing
in the outer `try` body can raise past the inner handler (the primary call
never raises, see `extract_transcript_with_ytdlp`), so the outer handlers of
lines 163-168 — which would return `videoUnavailableMsg` and
`transcriptsDisabledMsg` — are dead code and do not appear in the result. -/
def extract_transcript_details (video_id : List Char) (secondary : SecondaryOutcome) : List Char :=
  transcript_dispatch (extract_transcript_with_ytdlp (watch_url video_id)) secondary

/-- Return value of the dead handler on lines 163-164. -/
def videoUnavailableMsg : List Char := ("Error: The video is unavailable or private.".toList)

/-- Return value of the dead handler on lines 165-166. -/
def transcriptsDisabledMsg : List Char := ("Error: Transcripts are disabled for this video.".toList)

/-- The value the primary strategy always returns (see
`extract_transcript_with_ytdlp`). -/
def ytdlpFailure : List Char := ("yt-dlp error: ".toList) ++ nameErrorMsg

/-- The composite failure value of line 161 as it actually occurs: the yt-dlp
result interpolated there is always `ytdlpFailure`. -/
def bothFailedValue : List Char := ("Both methods failed. yt-dlp result: ".toList) ++ ytdlpFailure

/-- Result of the secondary-strategy block for each service outcome. -/
def secondaryOutcomeResult : SecondaryOutcome → List Char
  | .fetched cues => joinSpace cues
  | .raises _ => bothFailedValue

/-- Branch taken by the Presentation Shell on the acquisition result
(lines 195-198): the Summarization Client is invoked exactly when the result
does not start with `Error:`. -/
def shell_invokes_summarizer (transcript_text : List Char) : Bool :=
  !pyStartsWith ("Error:".toList) transcript_text

/-- Caption document with numeric cue-index lines, timestamp range lines and
the header token (three markup kinds around two cues). -/
def vttDoc : List Char :=
  ("WEBVTT\n\n1\n00:00:00.000 --> 00:00:01.000\nhello world of cues\n\n2\n00:00:01.000 --> 00:00:02.000\nsecond cue text here\n".toList)

/-- Characters that keep a query value inert through URL parsing and query
decoding: no field separator, no fragment start, no percent escape, no plus,
and none of the characters `urlsplit` removes. -/
def queryCleanChar (c : Char) : Bool :=
  !(c == '&' || c == '#' || c == '%' || c == '+' || c == '\t' || c == '\r' || c == '\n')

/-- Characters that keep arbitrary extra query content inert through URL
parsing (no fragment start, none of the characters `urlsplit` removes). -/
def urlTailChar (c : Char) : Bool :=
  !(c == '#' || c == '\t' || c == '\r' || c == '\n')

/-- Whether a string starts with a whitespace character. -/
def headIsSpace : List Char → Bool
  | [] => false
  | c :: _ => isPySpace c

/-- Collapsed whitespace shape: every whitespace character is a plain space
and no two adjacent characters are both whitespace.  This is the shape
`collapseWs` produces and on which it is the identity. -/
def wsFlat : List Char → Bool
  | [] => true
  | [c] => !isPySpace c || (c == ' ')
  | c :: d :: r => (!isPySpace c || ((c == ' ') && !isPySpace d)) && wsFlat (d :: r)

/-! Helper lemmas. -/

/-- A `splitOnChar` result is never the empty list of fields. -/
theorem splitOnChar_ne_nil (sep : Char) (l : List Char) : splitOnChar sep l ≠ [] := by
  induction l with
  | nil => simp [splitOnChar]
  | cons c cs ih =>
    simp only [splitOnChar]
    split
    · simp
    · split
      · simp
      · simp

/-- A one-field `splitOnChar` result is the whole input. -/
theorem splitOnChar_singleton (sep : Char) (l x : List Char)
    (h : splitOnChar sep l = [x]) : l = x := by
  induction l generalizing x with
  | nil =>
    simp [splitOnChar] at h
    exact h.symm
  | cons c cs ih =>
    simp only [splitOnChar] at h
    split at h
    · obtain ⟨-, h2⟩ : x = [] ∧ splitOnChar sep cs = [] := by simpa using h
      exact absurd h2 (splitOnChar_ne_nil sep cs)
    · split at h
      · next heq => exact absurd heq (splitOnChar_ne_nil sep cs)
      · next f r heq =>
        obtain ⟨h1, h2⟩ := by simpa using h
        cases h2
        have := ih f (by rw [heq])
        subst this
        exact h1.symm ▸ rfl

/-- Each percent segment decodes to a nonempty string. -/
theorem pctSeg_ne_nil (seg : List Char) : pctSeg seg ≠ [] := by
  match seg with
  | [] => simp [pctSeg]
  | [a] => simp [pctSeg]
  | a :: b :: r => simp only [pctSeg]; split <;> simp

/-- Percent decoding of a nonempty string is nonempty. -/
theorem pctDecode_ne_nil (l : List Char) (h : l ≠ []) : pctDecode l ≠ [] := by
  unfold pctDecode
  split
  · next heq => exact absurd heq (splitOnChar_ne_nil '%' l)
  · next first bits heq =>
    cases bits with
    | nil =>
      have : l = first := splitOnChar_singleton '%' l first heq
      simpa using this ▸ h
    | cons b bs =>
      simp only [List.map_cons, List.flatten_cons]
      intro hc
      rcases List.append_eq_nil.mp hc with ⟨-, h2⟩
      rcases List.append_eq_nil.mp h2 with ⟨h3, -⟩
      exact pctSeg_ne_nil b h3

/-- Full unquoting of a nonempty string is nonempty. -/
theorem unquote_plus_ne_nil (l : List Char) (h : l ≠ []) : unquote_plus l ≠ [] := by
  unfold unquote_plus
  exact pctDecode_ne_nil _ (by simpa using h)

/-- Every value produced by the query parser is nonempty (blank values are
dropped before decoding, and decoding preserves nonemptiness). -/
theorem parse_qs_v_ne_nil (q v : List Char) (h : v ∈ parse_qs_v q) : v ≠ [] := by
  unfold parse_qs_v at h
  obtain ⟨pr, hpr, hv⟩ := List.mem_map.mp h
  have hmem : pr ∈ pyParseQsl q := (List.mem_filter.mp hpr).1
  obtain ⟨field, -, hf⟩ := List.mem_filterMap.mp hmem
  unfold procField at hf
  split at hf
  · exact absurd hf (by simp)
  · split at hf
    · exact absurd hf (by simp)
    · next n v0 heq =>
      split at hf
      · exact absurd hf (by simp)
      · next hne =>
        have h2 : pr.2 = unquote_plus v0 := by rw [← Option.some.inj hf]
        subst hv
        rw [h2]
        exact unquote_plus_ne_nil v0 (by simpa [List.isEmpty_iff] using hne)

/-- Substring containment agrees with the infix relation. -/
theorem containsSub_spec (hay needle : List Char) :
    containsSub hay needle = true ↔ needle <:+: hay := by
  induction hay with
  | nil => simp [containsSub, List.isEmpty_iff]
  | cons c t ih =>
    simp only [containsSub, Bool.or_eq_true, List.isPrefixOf_iff_prefix, ih,
      List.infix_cons_iff]

/-- Claim C1: the code's dedicated handlers for `VideoUnavailable` and
`TranscriptsDisabled` (src/app.py lines 163-166) are dead: when the secondary
strategy raises either exception, the inner blanket handler (line 159) catches
it first and `extract_transcript_details` returns the composite
"Both methods failed" value rather than the corresponding error-marked
message. -/
theorem acquire_video_unavailable_hits_inner_handler :
    extract_transcript_details ("abc123".toList) (.raises .videoUnavailable) = bothFailedValue ∧
    extract_transcript_details ("abc123".toList) (.raises .videoUnavailable) ≠ videoUnavailableMsg ∧
    extract_transcript_details ("abc123".toList) (.raises .transcriptsDisabled) = bothFailedValue ∧
    extract_transcript_details ("abc123".toList) (.raises .transcriptsDisabled) ≠ transcriptsDisabledMsg := by
  refine ⟨rfl, by decide, rfl, by decide⟩

/-- Claim C2: `extract_transcript_with_ytdlp` returns the `yt-dlp error:`
NameError string for every input URL (the unbound name `os` aborts the body
before any subtitle work), so `extract_transcript_details` never accepts the
primary result and its value is always determined by the secondary strategy's
outcome. -/
theorem ytdlp_primary_always_fails :
    (∀ url : List Char,
      extract_transcript_with_ytdlp url = ytdlpFailure ∧
      pyStartsWith ("yt-dlp error:".toList) (extract_transcript_with_ytdlp url) = true) ∧
    (∀ (vid : List Char) (secondary : SecondaryOutcome),
      extract_transcript_details vid secondary = secondaryOutcomeResult secondary) := by
  refine ⟨fun url => ⟨rfl, rfl⟩, fun vid secondary => ?_⟩
  cases secondary <;> rfl

/-- Claim C3, counterexample: when both strategies fail, the returned
composite value does not carry the `Error:` marker the Presentation Shell
branches on (line 195), so the shell invokes the Summarization Client on this
failure value. -/
theorem composite_failure_reaches_summarizer :
    extract_transcript_details ("abc123".toList) (.raises (.other ("boom".toList))) = bothFailedValue ∧
    containsSub bothFailedValue ("Both methods failed".toList) = true ∧
    pyStartsWith ("Error:".toList) bothFailedValue = false ∧
    shell_invokes_summarizer bothFailedValue = true := by
  refine ⟨rfl, by decide, by decide, by decide⟩

/-- Claim C3, amended: every failure value the acquisition pipeline actually
returns on a secondary-strategy exception is the composite
"Both methods failed" value, which lacks the `Error:` marker, so the
Presentation Shell treats it as success and invokes the Summarization Client
on it. -/
theorem acquire_failure_values_lack_error_marker :
    ∀ (vid : List Char) (e : PyExcKind),
      extract_transcript_details vid (.raises e) = bothFailedValue ∧
      pyStartsWith ("Error:".toList) (extract_transcript_details vid (.raises e)) = false ∧
      shell_invokes_summarizer (extract_transcript_details vid (.raises e)) = true := by
  intro vid e
  exact ⟨rfl, rfl, rfl⟩

/-- Claim C4, counterexample: when the secondary strategy succeeds with an
empty cue list, `extract_transcript_details` returns the empty string as-is —
no composite failure value is synthesized and no diagnostic is embedded. -/
theorem empty_secondary_fetch_returns_empty :
    extract_transcript_details ("abc123".toList) (.fetched []) = [] ∧
    containsSub (extract_transcript_details ("abc123".toList) (.fetched []))
      ("Both methods failed".toList) = false ∧
    containsSub (extract_transcript_details ("abc123".toList) (.fetched []))
      ytdlpFailure = false := by
  refine ⟨rfl, by decide, by decide⟩

/-- Claim C4, amended: when the secondary strategy raises any exception, the
result is the composite "Both methods failed" value embedding the primary
strategy's own nonempty failure detail; an empty successful secondary fetch,
by contrast, is returned unchanged as the empty string. -/
theorem secondary_exception_yields_composite :
    ∀ (vid : List Char) (e : PyExcKind),
      extract_transcript_details vid (.raises e) =
        ("Both methods failed. yt-dlp result: ".toList) ++ ytdlpFailure ∧
      containsSub (extract_transcript_details vid (.raises e)) ytdlpFailure = true ∧
      ytdlpFailure ≠ [] ∧
      ∀ vid2 : List Char, extract_transcript_details vid2 (.fetched []) = [] := by
  intro vid e
  exact ⟨rfl, rfl, by decide, fun vid2 => rfl⟩

set_option maxRecDepth 16384 in
/-- Claim C5: the line-number pattern of line 120 is applied only after every
newline has already been replaced by a space (line 119), so the numeric
cue-index tokens are never stripped; on a document with cue indices `1` and
`2` the normalizer returns them embedded in the text rather than the
space-joined cue texts alone. -/
theorem line_number_tokens_survive_normalize :
    extract_text_from_vtt vttDoc = ("1 hello world of cues 2 second cue text here".toList) ∧
    extract_text_from_vtt vttDoc ≠ ("hello world of cues second cue text here".toList) := by
  refine ⟨by decide, by decide⟩

/-- A primary result starting with `Error` is never accepted by the dispatch
logic: the result is determined by the secondary strategy. -/
theorem transcript_dispatch_on_error (r : List Char)
    (h : pyStartsWith ("Error".toList) r = true) (secondary : SecondaryOutcome) :
    transcript_dispatch r secondary =
      (match secondary with
       | .fetched cues => joinSpace cues
       | .raises _ => ("Both methods failed. yt-dlp result: ".toList) ++ r) := by
  unfold transcript_dispatch
  rw [h]
  cases secondary <;> simp

/-- Claim C7: when cleaning yields fewer than 10 characters, the normalizer
returns the diagnostic failure value carrying a 500-character preview of the
raw input; that value starts with `Error`, so the acquisition dispatch never
accepts it as the primary result and instead falls through to the secondary
strategy. -/
theorem short_normalization_falls_back (content : List Char)
    (h : (vttCleaned content).length < 10) :
    extract_text_from_vtt content = tooShortMsg ++ content.take 500 ∧
    pyStartsWith ("Error".toList) (extract_text_from_vtt content) = true ∧
    ∀ secondary : SecondaryOutcome,
      transcript_dispatch (extract_text_from_vtt content) secondary =
        (match secondary with
         | .fetched cues => joinSpace cues
         | .raises _ =>
             ("Both methods failed. yt-dlp result: ".toList) ++ extract_text_from_vtt content) := by
  have he : extract_text_from_vtt content = tooShortMsg ++ content.take 500 := by
    unfold extract_text_from_vtt
    simp [h]
  have hs : pyStartsWith ("Error".toList) (tooShortMsg ++ content.take 500) = true := rfl
  refine ⟨he, by rw [he]; exact hs, fun secondary => ?_⟩
  rw [he]
  exact transcript_dispatch_on_error _ hs secondary

/-- Claim C7, witness at the two-character document `hi`. -/
theorem short_normalization_falls_back_witness :
    extract_text_from_vtt ("hi".toList) = tooShortMsg ++ ("hi".toList).take 500 ∧
    transcript_dispatch (extract_text_from_vtt ("hi".toList))
        (.raises (.other [])) =
      ("Both methods failed. yt-dlp result: ".toList) ++ extract_text_from_vtt ("hi".toList) := by
  have h := short_normalization_falls_back ("hi".toList) (by decide)
  exact ⟨h.1, h.2.2 (.raises (.other []))⟩

/-- Claim C10: `extract_video_id` is a total function of the URL string; on
every input it returns either `none` (all parse failures and unrecognized
hosts, including every modelled exception, which the source's blanket handler
turns into `None`) or a nonempty identifier. -/
theorem extract_video_id_total_safe :
    ∀ url : List Char,
      extract_video_id url = none ∨
      ∃ v, extract_video_id url = some v ∧ v ≠ [] := by
  intro url
  unfold extract_video_id
  cases hp : pyUrlparse url with
  | none => exact Or.inl rfl
  | some p =>
    simp only [List.drop_one]
    split
    · by_cases hid : p.path.tail = []
      · left; simp [hid]
      · right
        exact ⟨p.path.tail, by simp [List.isEmpty_iff, hid], hid⟩
    · split
      · cases hv : parse_qs_v p.query with
        | nil => exact Or.inl rfl
        | cons v r =>
          right
          refine ⟨v, rfl, ?_⟩
          exact parse_qs_v_ne_nil p.query v (hv ▸ List.mem_cons_self v r)
      · exact Or.inl rfl

/-- Claim C6, counterexample: the host `fakeyoutube.com` is neither the
recognized short-link host `youtu.be` nor the recognized canonical host
(`youtube.com` / `www.youtube.com`), yet `extract_video_id` accepts it,
because the source tests hosts by substring containment. -/
theorem substring_host_match_accepts_fake_host :
    (pyUrlparse ("https://fakeyoutube.com/watch?v=abc".toList)).map URLParts.netloc =
      some ("fakeyoutube.com".toList) ∧
    ("fakeyoutube.com".toList) ≠ ("youtu.be".toList) ∧
    ("fakeyoutube.com".toList) ≠ ("youtube.com".toList) ∧
    ("fakeyoutube.com".toList) ≠ ("www.youtube.com".toList) ∧
    extract_video_id ("https://fakeyoutube.com/watch?v=abc".toList) = some ("abc".toList) := by
  refine ⟨by decide, by decide, by decide, by decide, by decide⟩

/-- Claim C6, amended: for every URL whose host component contains neither
`youtu.be` nor `youtube.com` as a substring, `extract_video_id` returns
`none`. -/
theorem unrecognized_host_returns_none (url : List Char) (p : URLParts)
    (hp : pyUrlparse url = some p)
    (h1 : containsSub p.netloc ("youtu.be".toList) = false)
    (h2 : containsSub p.netloc ("youtube.com".toList) = false) :
    extract_video_id url = none := by
  have hw : ("youtube.com".toList) <:+: ("www.youtube.com".toList) :=
    (containsSub_spec _ _).mp rfl
  have h3 : containsSub p.netloc ("www.youtube.com".toList) = false := by
    cases hcw : containsSub p.netloc ("www.youtube.com".toList) with
    | false => rfl
    | true =>
      have hy : containsSub p.netloc ("youtube.com".toList) = true :=
        (containsSub_spec _ _).mpr (hw.trans ((containsSub_spec _ _).mp hcw))
      rw [h2] at hy
      cases hy
  have h1l : containsSub p.netloc ['y', 'o', 'u', 't', 'u', '.', 'b', 'e'] = false := h1
  have h2l : containsSub p.netloc ['y', 'o', 'u', 't', 'u', 'b', 'e', '.', 'c', 'o', 'm'] = false := h2
  have h3l : containsSub p.netloc
      ['w', 'w', 'w', '.', 'y', 'o', 'u', 't', 'u', 'b', 'e', '.', 'c', 'o', 'm'] = false := h3
  unfold extract_video_id
  rw [hp]
  simp [h1l, h2l, h3l]

/-- Claim C6, witness: a host recognized by neither substring is rejected. -/
theorem unrecognized_host_returns_none_witness :
    extract_video_id ("https://example.com/watch?v=abc".toList) = none :=
  unrecognized_host_returns_none ("https://example.com/watch?v=abc".toList)
    ⟨("https".toList), ("example.com".toList), ("/watch".toList), ("v=abc".toList), []⟩
    (by decide) (by decide) (by decide)

/-- Splitting at the first occurrence of a separator that is absent from the
leading segment. -/
theorem splitAtFirst_hit (sep : Char) (a r : List Char) (h : sep ∉ a) :
    splitAtFirst sep (a ++ sep :: r) = some (a, r) := by
  induction a with
  | nil => simp [splitAtFirst]
  | cons x xs ih =>
    have hmem : sep ∉ xs := fun hc => h (List.mem_cons_of_mem x hc)
    have hx : (x == sep) = false := by
      rw [beq_eq_false_iff_ne]
      intro hc
      exact h (by rw [hc]; exact List.mem_cons_self sep xs)
    simp [splitAtFirst, hx, ih hmem]

/-- Splitting when the separator does not occur at all. -/
theorem splitAtFirst_miss (sep : Char) (l : List Char) (h : sep ∉ l) :
    splitAtFirst sep l = none := by
  induction l with
  | nil => rfl
  | cons x xs ih =>
    have hmem : sep ∉ xs := fun hc => h (List.mem_cons_of_mem x hc)
    have hx : (x == sep) = false := by
      rw [beq_eq_false_iff_ne]
      intro hc
      exact h (by rw [hc]; exact List.mem_cons_self sep xs)
    simp [splitAtFirst, hx, ih hmem]

/-- `takeWhile` runs through a fully accepted segment up to the first
rejected character. -/
theorem takeWhile_through (p : Char → Bool) (a : List Char) (d : Char) (r : List Char)
    (ha : ∀ c ∈ a, p c = true) (hd : p d = false) :
    (a ++ d :: r).takeWhile p = a := by
  induction a with
  | nil => simp [List.takeWhile_cons, hd]
  | cons x xs ih =>
    simp [List.takeWhile_cons, ha x (List.mem_cons_self x xs),
      ih (fun c hc => ha c (List.mem_cons_of_mem x hc))]

/-- `dropWhile` runs through a fully accepted segment up to the first
rejected character. -/
theorem dropWhile_through (p : Char → Bool) (a : List Char) (d : Char) (r : List Char)
    (ha : ∀ c ∈ a, p c = true) (hd : p d = false) :
    (a ++ d :: r).dropWhile p = d :: r := by
  induction a with
  | nil => simp [List.dropWhile_cons, hd]
  | cons x xs ih =>
    simp [List.dropWhile_cons, ha x (List.mem_cons_self x xs),
      ih (fun c hc => ha c (List.mem_cons_of_mem x hc))]

/-- Field splitting across the first separator occurrence. -/
theorem splitOnChar_hit (sep : Char) (a r : List Char) (h : sep ∉ a) :
    splitOnChar sep (a ++ sep :: r) = a :: splitOnChar sep r := by
  induction a with
  | nil => simp [splitOnChar]
  | cons x xs ih =>
    have hmem : sep ∉ xs := fun hc => h (List.mem_cons_of_mem x hc)
    have hx : (x == sep) = false := by
      rw [beq_eq_false_iff_ne]
      intro hc
      exact h (by rw [hc]; exact List.mem_cons_self sep xs)
    simp [splitOnChar, hx, ih hmem]

/-- A separator-free string is a single field. -/
theorem splitOnChar_miss (sep : Char) (a : List Char) (h : sep ∉ a) :
    splitOnChar sep a = [a] := by
  induction a with
  | nil => rfl
  | cons x xs ih =>
    have hmem : sep ∉ xs := fun hc => h (List.mem_cons_of_mem x hc)
    have hx : (x == sep) = false := by
      rw [beq_eq_false_iff_ne]
      intro hc
      exact h (by rw [hc]; exact List.mem_cons_self sep xs)
    simp [splitOnChar, hx, ih hmem]

theorem unquote_plus_clean (l : List Char)
    (hplus : ∀ c ∈ l, (c == '+') = false) (hpct : '%' ∉ l) :
    unquote_plus l = l := by
  unfold unquote_plus
  have hmap : l.map (fun c => if c == '+' then ' ' else c) = l := by
    conv_rhs => rw [← List.map_id l]
    exact List.map_congr_left (fun c hc => by simp [hplus c hc])
  rw [hmap]
  unfold pctDecode
  rw [splitOnChar_miss '%' l hpct]
  simp

/-- Parsing of a canonical watch URL with an arbitrary inert query suffix:
`urlparse` yields the canonical host, the `/watch` path and the query
`v=<suffix>`. -/
theorem canonical_parse (q : List Char) (hq : ∀ c ∈ q, urlTailChar c = true) :
    pyUrlparse (("https://www.youtube.com/watch?v=".toList) ++ q) =
      some ⟨("https".toList), ("www.youtube.com".toList), ("/watch".toList),
            'v' :: '=' :: q, []⟩ := by
  have hq3 : ∀ c ∈ q, (!(c == '\t' || c == '\r' || c == '\n')) = true := by
    intro c hc
    have hc2 := hq c hc
    simp [urlTailChar] at hc2
    simp
    tauto
  have hqh : ('#' : Char) ∉ q := by
    intro hc
    have h2 := hq _ hc
    simp [urlTailChar] at h2
  have hA0 : List.dropWhile (fun c => decide (c.toNat ≤ 32))
      (("https://www.youtube.com/watch?v=".toList) ++ q) =
      ("https://www.youtube.com/watch?v=".toList) ++ q := by
    rw [show (("https://www.youtube.com/watch?v=".toList) ++ q) =
        'h' :: (("ttps://www.youtube.com/watch?v=".toList) ++ q) from rfl]
    rw [List.dropWhile_cons]
    simp
  have hA1 : List.filter (fun c => !(c == '\t' || c == '\r' || c == '\n'))
      (("https://www.youtube.com/watch?v=".toList) ++ q) =
      ("https://www.youtube.com/watch?v=".toList) ++ q := by
    rw [List.filter_append]
    rw [List.filter_eq_self.mpr hq3]
    rw [show List.filter (fun c => !(c == '\t' || c == '\r' || c == '\n'))
        ("https://www.youtube.com/watch?v=".toList) =
        ("https://www.youtube.com/watch?v=".toList) from by decide]
  have hA2 : pySplitScheme (("https://www.youtube.com/watch?v=".toList) ++ q) =
      (("https".toList), ("//www.youtube.com/watch?v=".toList) ++ q) := by
    unfold pySplitScheme
    rw [show (("https://www.youtube.com/watch?v=".toList) ++ q) =
        ("https".toList) ++ ':' :: (("//www.youtube.com/watch?v=".toList) ++ q) from rfl]
    rw [splitAtFirst_hit ':' ("https".toList) _ (by decide)]
    rfl
  have hA3 : (("//www.youtube.com/watch?v=".toList) ++ q).take 2 = ['/', '/'] := rfl
  have hA4 : (("//www.youtube.com/watch?v=".toList) ++ q).drop 2 =
      ("www.youtube.com/watch?v=".toList) ++ q := rfl
  have hA5 : (("www.youtube.com/watch?v=".toList) ++ q).takeWhile
      (fun c => !netlocDelim c) = ("www.youtube.com".toList) := by
    rw [show (("www.youtube.com/watch?v=".toList) ++ q) =
        ("www.youtube.com".toList) ++ '/' :: (("watch?v=".toList) ++ q) from rfl]
    exact takeWhile_through _ _ _ _ (by decide) (by decide)
  have hA6 : (("www.youtube.com/watch?v=".toList) ++ q).dropWhile
      (fun c => !netlocDelim c) = '/' :: (("watch?v=".toList) ++ q) := by
    rw [show (("www.youtube.com/watch?v=".toList) ++ q) =
        ("www.youtube.com".toList) ++ '/' :: (("watch?v=".toList) ++ q) from rfl]
    exact dropWhile_through _ _ _ _ (by decide) (by decide)
  have hA8 : splitAtFirst '#' ('/' :: (("watch?v=".toList) ++ q)) = none := by
    apply splitAtFirst_miss
    simp only [List.mem_cons, List.mem_append, not_or]
    refine ⟨by decide, by decide, hqh⟩
  have hA9 : splitAtFirst '?' ('/' :: (("watch?v=".toList) ++ q)) =
      some (("/watch".toList), 'v' :: '=' :: q) := by
    rw [show ('/' :: (("watch?v=".toList) ++ q)) =
        ("/watch".toList) ++ '?' :: ('v' :: '=' :: q) from rfl]
    exact splitAtFirst_hit '?' ("/watch".toList) _ (by decide)
  have hA7 : (("www.youtube.com".toList).contains '[' &&
      !("www.youtube.com".toList).contains ']' ||
      ("www.youtube.com".toList).contains ']' &&
      !("www.youtube.com".toList).contains '[') = false := by decide
  unfold pyUrlparse pyUrlsplit
  simp only [hA0, hA1, hA2, hA3, hA4, hA5, hA6, hA7, hA8, hA9, beq_self_eq_true,
    if_true, Bool.false_eq_true, if_false, Option.map_some']
  rfl

/-- Claim C9: for every canonical watch URL whose query starts with `v=ID`
for a nonempty inert identifier, optionally followed by `&` and arbitrary
further query content, `extract_video_id` returns exactly the identifier,
ignoring all other query parameters. -/
theorem canonical_url_extracts_v_param (id tl : List Char)
    (hne : id ≠ [])
    (hidc : ∀ c ∈ id, queryCleanChar c = true)
    (htl : tl = [] ∨ ∃ t, tl = '&' :: t)
    (htc : ∀ c ∈ tl, urlTailChar c = true) :
    extract_video_id (("https://www.youtube.com/watch?v=".toList) ++ id ++ tl) = some id := by
  have hamp : ('&' : Char) ∉ id := fun hc => by
    have h2 := hidc _ hc; simp [queryCleanChar] at h2
  have hpct : ('%' : Char) ∉ id := fun hc => by
    have h2 := hidc _ hc; simp [queryCleanChar] at h2
  have hplus : ∀ c ∈ id, (c == '+') = false := by
    intro c hc
    have h2 := hidc c hc
    simp [queryCleanChar] at h2
    simp
    tauto
  have hqc : ∀ c ∈ id ++ tl, urlTailChar c = true := by
    intro c hc
    rcases List.mem_append.mp hc with h | h
    · have h2 := hidc c h
      simp [queryCleanChar] at h2
      simp [urlTailChar]
      tauto
    · exact htc c h
  have huq : unquote_plus id = id := unquote_plus_clean id hplus hpct
  have hpf : procField ('v' :: '=' :: id) = some (("v".toList), id) := by
    unfold procField
    rw [show ('v' :: '=' :: id) = ['v'] ++ '=' :: id from rfl,
      splitAtFirst_hit '=' ['v'] id (by decide)]
    simp [List.isEmpty_iff, hne, huq, show unquote_plus ['v'] = ("v".toList) from by decide]
  have hnotin : ('&' : Char) ∉ ('v' :: '=' :: id) := by
    intro hc
    rcases List.mem_cons.mp hc with h | h
    · exact absurd h (by decide)
    rcases List.mem_cons.mp h with h2 | h2
    · exact absurd h2 (by decide)
    · exact hamp h2
  have hsplit2 : ∃ rest, splitOnChar '&' ('v' :: '=' :: (id ++ tl)) = ('v' :: '=' :: id) :: rest := by
    rcases htl with rfl | ⟨t, rfl⟩
    · refine ⟨[], ?_⟩
      rw [show ('v' :: '=' :: (id ++ ([] : List Char))) = 'v' :: '=' :: id from by simp]
      exact splitOnChar_miss '&' _ hnotin
    · refine ⟨splitOnChar '&' t, ?_⟩
      rw [show ('v' :: '=' :: (id ++ '&' :: t)) = ('v' :: '=' :: id) ++ '&' :: t from rfl]
      exact splitOnChar_hit '&' _ _ hnotin
  obtain ⟨rest, hsp⟩ := hsplit2
  have hqsl : pyParseQsl ('v' :: '=' :: (id ++ tl)) =
      (("v".toList), id) :: rest.filterMap procField := by
    unfold pyParseQsl
    rw [hsp, List.filterMap_cons, hpf]
  have hv : parse_qs_v ('v' :: '=' :: (id ++ tl)) =
      id :: ((rest.filterMap procField).filter
        (fun pr => pr.1 == ("v".toList))).map (fun pr => pr.2) := by
    unfold parse_qs_v
    rw [hqsl]
    simp
  have hparse := canonical_parse (id ++ tl) hqc
  unfold extract_video_id
  rw [List.append_assoc, hparse]
  simp +decide [hv]

/-- Claim C9, witness: the spec's end-to-end example URL with an extra `t`
parameter. -/
theorem canonical_url_extracts_v_param_witness :
    extract_video_id (("https://www.youtube.com/watch?v=".toList) ++
      ("abc123".toList) ++ ("&t=30s".toList)) = some ("abc123".toList) :=
  canonical_url_extracts_v_param ("abc123".toList) ("&t=30s".toList) (by decide) (by decide)
    (Or.inr ⟨("t=30s".toList), by decide⟩) (by decide)

/-- A deleting scanner whose matcher rejects every nonempty suffix leaves the
string unchanged, regardless of fuel. -/
theorem subDelF_noop (m : List Char → Option (List Char)) (l : List Char)
    (h : ∀ s, s ≠ [] → s <:+ l → m s = none) :
    ∀ fuel, subDelF m fuel l = l := by
  induction l with
  | nil => intro fuel; cases fuel <;> rfl
  | cons c cs ih =>
    intro fuel
    cases fuel with
    | zero => rfl
    | succ n =>
      have hm : m (c :: cs) = none := h (c :: cs) (by simp) List.suffix_rfl
      simp only [subDelF, hm]
      rw [ih (fun s hs hsuf => h s hs (hsuf.trans (List.suffix_cons c cs))) n]

/-- Matching a concatenated pattern splits into two successive matches. -/
theorem eatPat_append_split (ps qs : List (Char → Bool)) (l r : List Char)
    (h : eatPat (ps ++ qs) l = some r) :
    ∃ m, eatPat ps l = some m ∧ eatPat qs m = some r := by
  induction ps generalizing l with
  | nil => exact ⟨l, rfl, by simpa using h⟩
  | cons p ps ih =>
    cases l with
    | nil => simp [eatPat] at h
    | cons c cs =>
      by_cases hp : p c = true
      · simp only [List.cons_append, eatPat, hp, if_true] at h ⊢
        exact ih cs h
      · simp [eatPat, hp] at h

/-- A successful `eatPat` means the pattern matches the consumed prefix. -/
theorem eatPat_matches (ps : List (Char → Bool)) (l r : List Char)
    (h : eatPat ps l = some r) : matchesPat ps (l.take ps.length) = true := by
  induction ps generalizing l with
  | nil => rfl
  | cons p ps ih =>
    cases l with
    | nil => simp [eatPat] at h
    | cons c cs =>
      by_cases hp : p c = true
      · simp only [eatPat, hp, if_true] at h
        simp only [List.length_cons, List.take_succ_cons, matchesPat, hp, Bool.true_and]
        exact ih cs h
      · simp [eatPat, hp] at h

/-- A matched string has exactly the pattern's length. -/
theorem matchesPat_length (ps : List (Char → Bool)) (l : List Char)
    (h : matchesPat ps l = true) : l.length = ps.length := by
  induction ps generalizing l with
  | nil => cases l with | nil => rfl | cons c cs => simp [matchesPat] at h
  | cons p ps ih =>
    cases l with
    | nil => simp [matchesPat] at h
    | cons c cs =>
      simp only [matchesPat, Bool.and_eq_true] at h
      simp [ih cs h.2]

/-- Pointwise consequences of a pattern transfer to every matched string. -/
theorem matchesPat_all (ps : List (Char → Bool)) (m : List Char) (q : Char → Bool)
    (hp : ∀ p ∈ ps, ∀ c, p c = true → q c = true)
    (h : matchesPat ps m = true) : m.all q = true := by
  induction ps generalizing m with
  | nil => cases m with | nil => rfl | cons c cs => simp [matchesPat] at h
  | cons p ps ih =>
    cases m with
    | nil => simp [matchesPat] at h
    | cons c cs =>
      simp only [matchesPat, Bool.and_eq_true] at h
      simp only [List.all_cons, Bool.and_eq_true]
      exact ⟨hp p (List.mem_cons_self _ _) c h.1,
        ih cs (fun p2 hp2 => hp p2 (List.mem_cons_of_mem _ hp2)) h.2⟩

/-- Digits are not whitespace. -/
theorem digit_not_space (c : Char) (h : c.isDigit = true) : isPySpace c = false := by
  by_contra hc
  rw [Bool.not_eq_false] at hc
  simp only [isPySpace, Bool.or_eq_true, beq_iff_eq] at hc
  rcases hc with ((((rfl | rfl) | rfl) | rfl) | rfl) | rfl <;> exact absurd h (by decide)

/-- Every character predicate of the clock pattern rejects whitespace. -/
theorem clockPat_nonspace : ∀ p ∈ clockPat, ∀ c, p c = true → (!isPySpace c) = true := by
  intro p hp c hpc
  simp only [clockPat, List.mem_cons, List.not_mem_nil, or_false] at hp
  rcases hp with rfl | rfl | rfl | rfl | rfl | rfl | rfl | rfl | rfl | rfl | rfl | rfl
  · simp [digit_not_space c hpc]
  · simp [digit_not_space c hpc]
  · rw [beq_iff_eq] at hpc; subst hpc; decide
  · simp [digit_not_space c hpc]
  · simp [digit_not_space c hpc]
  · rw [beq_iff_eq] at hpc; subst hpc; decide
  · simp [digit_not_space c hpc]
  · simp [digit_not_space c hpc]
  · rw [beq_iff_eq] at hpc; subst hpc; decide
  · simp [digit_not_space c hpc]
  · simp [digit_not_space c hpc]
  · simp [digit_not_space c hpc]

/-- A clock match contains no whitespace. -/
theorem isClock12_nonspace (m : List Char) (h : isClock12 m = true) :
    m.all (fun c => !isPySpace c) = true :=
  matchesPat_all clockPat m _ clockPat_nonspace h

/-- Characterization of clock-freeness over all suffixes. -/
theorem clockFree_iff (l : List Char) :
    clockFreeB l = true ↔ ∀ s, s <:+ l → isClock12 (s.take 12) = false := by
  induction l with
  | nil =>
    constructor
    · intro _ s hs
      rw [List.suffix_nil.mp hs]
      rfl
    · intro _
      rfl
  | cons c cs ih =>
    simp only [clockFreeB, Bool.and_eq_true, Bool.not_eq_true', ih]
    constructor
    · rintro ⟨h1, h2⟩ s hs
      rcases List.suffix_cons_iff.mp hs with rfl | hs2
      · exact h1
      · exact h2 s hs2
    · intro h
      exact ⟨h _ List.suffix_rfl, fun s hs => h s (hs.trans (List.suffix_cons c cs))⟩

/-- Clock-freeness passes to suffixes. -/
theorem clockFree_suffix (l s : List Char) (h : clockFreeB l = true) (hs : s <:+ l) :
    clockFreeB s = true := by
  rw [clockFree_iff] at h ⊢
  exact fun t ht => h t (ht.trans hs)

/-- Clock-freeness passes to prefixes. -/
theorem clockFree_pre (l p : List Char) (h : clockFreeB l = true) (hp : p <+: l) :
    clockFreeB p = true := by
  rw [clockFree_iff] at h ⊢
  intro s hs
  obtain ⟨t, rfl⟩ := hs
  obtain ⟨u, rfl⟩ := hp
  by_contra hcl
  rw [Bool.not_eq_false] at hcl
  have hlen : 12 ≤ s.length := by
    have h12 := matchesPat_length clockPat (s.take 12) hcl
    simp only [List.length_take] at h12
    have : clockPat.length = 12 := rfl
    omega
  have htake : (s ++ u).take 12 = s.take 12 := by
    rw [List.take_append_eq_append_take, Nat.sub_eq_zero_of_le hlen]
    simp
  have hcl2 : isClock12 ((s ++ u).take 12) = true := by rw [htake]; exact hcl
  have hsuf : (s ++ u) <:+ (t ++ s) ++ u := ⟨t, by simp⟩
  rw [h (s ++ u) hsuf] at hcl2
  cases hcl2

/-- Collapsing a string that starts with whitespace yields a leading space. -/
theorem collapse_head_space (d : Char) (r : List Char) (hd : isPySpace d = true) :
    ∃ t, collapseWs (d :: r) = ' ' :: t := by
  induction r generalizing d with
  | nil => exact ⟨[], by simp [collapseWs, hd]⟩
  | cons e r2 ih =>
    by_cases he : isPySpace e = true
    · obtain ⟨t, ht⟩ := ih e he
      exact ⟨t, by simp [collapseWs, hd, he, ht]⟩
    · exact ⟨collapseWs (e :: r2), by simp [collapseWs, hd, he]⟩

/-- Collapsing a string that starts with non-whitespace keeps its head. -/
theorem collapse_headIsSpace (d : Char) (r : List Char) (hd : isPySpace d = false) :
    headIsSpace (collapseWs (d :: r)) = false := by
  cases r with
  | nil => simp [collapseWs, hd, headIsSpace]
  | cons e es => simp [collapseWs, hd, headIsSpace]

/-- A whitespace-free prefix of a collapsed string is a prefix of the
original string. -/
theorem collapse_take_nonspace (l : List Char) :
    ∀ n, ((collapseWs l).take n).all (fun c => !isPySpace c) = true →
      (collapseWs l).take n = l.take n := by
  induction l with
  | nil => intro n _; rfl
  | cons c cs ih =>
    intro n hall
    cases cs with
    | nil =>
      by_cases hc : isPySpace c = true
      · rw [show collapseWs [c] = [' '] from by simp [collapseWs, hc]] at hall ⊢
        cases n with
        | zero => rfl
        | succ k =>
          simp at hall
          exact absurd hall (by decide)
      · rw [show collapseWs [c] = [c] from by simp [collapseWs, hc]]
    | cons d ds =>
      by_cases hc : isPySpace c = true
      · by_cases hd : isPySpace d = true
        · rw [show collapseWs (c :: d :: ds) = collapseWs (d :: ds) from by
            simp [collapseWs, hc, hd]] at hall ⊢
          cases n with
          | zero => rfl
          | succ k =>
            exfalso
            obtain ⟨t, ht⟩ := collapse_head_space d ds hd
            rw [ht] at hall
            simp at hall
            exact absurd hall.1 (by decide)
        · rw [show collapseWs (c :: d :: ds) = ' ' :: collapseWs (d :: ds) from by
            simp [collapseWs, hc, hd]] at hall ⊢
          cases n with
          | zero => rfl
          | succ k =>
            simp at hall
            exact absurd hall.1 (by decide)
      · rw [show collapseWs (c :: d :: ds) = c :: collapseWs (d :: ds) from by
          simp [collapseWs, hc]] at hall ⊢
        cases n with
        | zero => rfl
        | succ k =>
          simp only [List.take_succ_cons, List.all_cons, Bool.and_eq_true] at hall ⊢
          rw [ih k hall.2]

/-- A string headed by a space is not a clock timestamp. -/
theorem isClock12_space_head (t : List Char) : isClock12 ((' ' :: t).take 12) = false := rfl

/-- Whitespace collapsing cannot create a clock timestamp. -/
theorem clockFree_collapse (l : List Char) (h : clockFreeB l = true) :
    clockFreeB (collapseWs l) = true := by
  induction l with
  | nil => exact h
  | cons c cs ih =>
    simp only [clockFreeB, Bool.and_eq_true, Bool.not_eq_true'] at h
    obtain ⟨h1, h2⟩ := h
    cases cs with
    | nil =>
      by_cases hc : isPySpace c = true
      · rw [show collapseWs [c] = [' '] from by simp [collapseWs, hc]]
        decide
      · rw [show collapseWs [c] = [c] from by simp [collapseWs, hc]]
        simp only [clockFreeB, Bool.and_eq_true, Bool.not_eq_true']
        exact ⟨h1, trivial⟩
    | cons d ds =>
      have hT := ih h2
      by_cases hc : isPySpace c = true
      · by_cases hd : isPySpace d = true
        · rw [show collapseWs (c :: d :: ds) = collapseWs (d :: ds) from by
            simp [collapseWs, hc, hd]]
          exact hT
        · rw [show collapseWs (c :: d :: ds) = ' ' :: collapseWs (d :: ds) from by
            simp [collapseWs, hc, hd]]
          cases hE : collapseWs (d :: ds) with
          | nil => decide
          | cons e es =>
            rw [← hE]
            simp only [clockFreeB, Bool.and_eq_true, Bool.not_eq_true']
            refine ⟨?_, by rw [hE] at hT ⊢; exact hT⟩
            exact isClock12_space_head (collapseWs (d :: ds))
      · rw [show collapseWs (c :: d :: ds) = c :: collapseWs (d :: ds) from by
          simp [collapseWs, hc]]
        cases hE : collapseWs (d :: ds) with
        | nil =>
          simp [clockFreeB, isClock12, clockPat, matchesPat]
        | cons e es =>
          rw [← hE]
          simp only [clockFreeB, Bool.and_eq_true, Bool.not_eq_true']
          refine ⟨?_, by rw [hE] at hT ⊢; exact hT⟩
          by_contra hcl
          rw [Bool.not_eq_false] at hcl
          have hall := isClock12_nonspace _ hcl
          have hshape : (c :: collapseWs (d :: ds)).take 12 =
              c :: (collapseWs (d :: ds)).take 11 := rfl
          rw [hshape] at hall hcl
          simp only [List.all_cons, Bool.and_eq_true] at hall
          have h11 : (collapseWs (d :: ds)).take 11 = (d :: ds).take 11 :=
            collapse_take_nonspace (d :: ds) 11 hall.2
          rw [h11] at hcl
          have : isClock12 ((c :: d :: ds).take 12) = true := hcl
          rw [h1] at this
          cases this

/-- Every character of a collapsed string is either the inserted space or a
non-whitespace character of the original. -/
theorem mem_collapse (c : Char) (l : List Char) (h : c ∈ collapseWs l) :
    c = ' ' ∨ (c ∈ l ∧ isPySpace c = false) := by
  induction l with
  | nil => simp [collapseWs] at h
  | cons a cs ih =>
    cases cs with
    | nil =>
      cases ha : isPySpace a with
      | true =>
        rw [show collapseWs [a] = [' '] from by simp [collapseWs, ha]] at h
        simp at h
        exact Or.inl h
      | false =>
        rw [show collapseWs [a] = [a] from by simp [collapseWs, ha]] at h
        simp at h
        subst h
        exact Or.inr ⟨List.mem_cons_self _ _, ha⟩
    | cons d ds =>
      cases ha : isPySpace a with
      | true =>
        by_cases hd : isPySpace d = true
        · rw [show collapseWs (a :: d :: ds) = collapseWs (d :: ds) from by
            simp [collapseWs, ha, hd]] at h
          rcases ih h with h1 | ⟨h2, h3⟩
          · exact Or.inl h1
          · exact Or.inr ⟨List.mem_cons_of_mem a h2, h3⟩
        · rw [show collapseWs (a :: d :: ds) = ' ' :: collapseWs (d :: ds) from by
            simp [collapseWs, ha, hd]] at h
          rcases List.mem_cons.mp h with rfl | h2
          · exact Or.inl rfl
          · rcases ih h2 with h1 | ⟨h3, h4⟩
            · exact Or.inl h1
            · exact Or.inr ⟨List.mem_cons_of_mem a h3, h4⟩
      | false =>
        rw [show collapseWs (a :: d :: ds) = a :: collapseWs (d :: ds) from by
          simp [collapseWs, ha]] at h
        rcases List.mem_cons.mp h with rfl | h2
        · exact Or.inr ⟨List.mem_cons_self _ _, ha⟩
        · rcases ih h2 with h1 | ⟨h3, h4⟩
          · exact Or.inl h1
          · exact Or.inr ⟨List.mem_cons_of_mem a h3, h4⟩

/-- No newline survives whitespace collapsing. -/
theorem nl_not_mem_collapse (l : List Char) : ('\n' : Char) ∉ collapseWs l := by
  intro h
  rcases mem_collapse '\n' l h with h1 | ⟨-, h3⟩
  · exact absurd h1 (by decide)
  · exact absurd h3 (by decide)

/-- Stripping only removes characters. -/
theorem stripWS_subset (l : List Char) (c : Char) (hc : c ∈ stripWS l) : c ∈ l := by
  unfold stripWS rtrimWS ltrimWS at hc
  have h1 : c ∈ (l.dropWhile isPySpace).reverse.dropWhile isPySpace := List.mem_reverse.mp hc
  have h2 : c ∈ (l.dropWhile isPySpace).reverse := (List.dropWhile_suffix isPySpace).subset h1
  have h3 : c ∈ l.dropWhile isPySpace := List.mem_reverse.mp h2
  exact (List.dropWhile_suffix isPySpace).subset h3

/-- The tail of the right-strip is a prefix of the original string. -/
theorem rtrim_front (w : List Char) : rtrimWS w <+: w := by
  have h : w.reverse.dropWhile isPySpace <:+ w.reverse := List.dropWhile_suffix isPySpace
  have h2 := List.reverse_prefix.mpr h
  rw [List.reverse_reverse] at h2
  exact h2

/-- Unfolding of `wsFlat` by one character. -/
theorem wsFlat_cons (c : Char) (t : List Char) :
    wsFlat (c :: t) = ((!isPySpace c || ((c == ' ') && !headIsSpace t)) && wsFlat t) := by
  cases t with
  | nil => simp [wsFlat, headIsSpace]
  | cons d ds => simp [wsFlat, headIsSpace]

/-- Collapsed strings have the collapsed whitespace shape. -/
theorem wsFlat_collapse (l : List Char) : wsFlat (collapseWs l) = true := by
  induction l with
  | nil => rfl
  | cons c cs ih =>
    cases cs with
    | nil =>
      cases hc : isPySpace c with
      | true =>
        rw [show collapseWs [c] = [' '] from by simp [collapseWs, hc]]
        decide
      | false =>
        rw [show collapseWs [c] = [c] from by simp [collapseWs, hc]]
        simp [wsFlat, hc]
    | cons d ds =>
      cases hc : isPySpace c with
      | true =>
        by_cases hd : isPySpace d = true
        · rw [show collapseWs (c :: d :: ds) = collapseWs (d :: ds) from by
            simp [collapseWs, hc, hd]]
          exact ih
        · rw [show collapseWs (c :: d :: ds) = ' ' :: collapseWs (d :: ds) from by
            simp [collapseWs, hc, hd]]
          rw [wsFlat_cons, ih]
          have hh : headIsSpace (collapseWs (d :: ds)) = false :=
            collapse_headIsSpace d ds (by simpa using hd)
          simp [hh]
      | false =>
        rw [show collapseWs (c :: d :: ds) = c :: collapseWs (d :: ds) from by
          simp [collapseWs, hc]]
        rw [wsFlat_cons, ih]
        simp [hc]

/-- On strings of collapsed shape, collapsing is the identity. -/
theorem wsFlat_collapse_id (l : List Char) (h : wsFlat l = true) : collapseWs l = l := by
  induction l with
  | nil => rfl
  | cons c cs ih =>
    cases cs with
    | nil =>
      cases hc : isPySpace c with
      | true =>
        have hsp : (c == ' ') = true := by
          rw [show wsFlat [c] = (!isPySpace c || (c == ' ')) from rfl, hc] at h
          simpa using h
        rw [beq_iff_eq] at hsp
        subst hsp
        simp [collapseWs]
      | false => simp [collapseWs, hc]
    | cons d ds =>
      rw [wsFlat_cons, Bool.and_eq_true] at h
      obtain ⟨h1, h2⟩ := h
      have ihd := ih h2
      cases hc : isPySpace c with
      | true =>
        rw [hc] at h1
        simp only [Bool.not_true, Bool.false_or, Bool.and_eq_true] at h1
        obtain ⟨hsp, hhd⟩ := h1
        rw [beq_iff_eq] at hsp
        subst hsp
        have hd : isPySpace d = false := by
          simpa [headIsSpace] using hhd
        simp [collapseWs, hd, ihd]
      | false =>
        simp [collapseWs, hc, ihd]

/-- The collapsed shape passes to suffixes. -/
theorem wsFlat_suffix (l s : List Char) (h : wsFlat l = true) (hs : s <:+ l) :
    wsFlat s = true := by
  induction l with
  | nil =>
    rw [List.suffix_nil.mp hs]
    rfl
  | cons c cs ih =>
    rcases List.suffix_cons_iff.mp hs with rfl | hs2
    · exact h
    · rw [wsFlat_cons, Bool.and_eq_true] at h
      exact ih h.2 hs2

/-- The collapsed shape passes to prefixes. -/
theorem wsFlat_pre (l p : List Char) (h : wsFlat l = true) (hp : p <+: l) :
    wsFlat p = true := by
  induction p generalizing l with
  | nil => rfl
  | cons c cs ih =>
    obtain ⟨t, rfl⟩ := hp
    rw [List.cons_append, wsFlat_cons, Bool.and_eq_true] at h
    rw [wsFlat_cons, Bool.and_eq_true]
    refine ⟨?_, ih (cs ++ t) h.2 ⟨t, rfl⟩⟩
    have hhead2 : headIsSpace (cs ++ t) = false → headIsSpace cs = false := by
      cases cs with
      | nil => intro _; rfl
      | cons e es => intro hx; simpa [headIsSpace] using hx
    have h1 := h.1
    simp only [Bool.or_eq_true, Bool.and_eq_true, Bool.not_eq_true'] at h1 ⊢
    rcases h1 with h1 | ⟨h1, h2⟩
    · exact Or.inl h1
    · exact Or.inr ⟨h1, hhead2 h2⟩

/-- The first character surviving `dropWhile` fails the predicate. -/
theorem dropWhile_head_false (p : Char → Bool) (l : List Char) :
    ∀ c t, l.dropWhile p = c :: t → p c = false := by
  induction l with
  | nil => intro c t h; simp at h
  | cons a as ih =>
    intro c t h
    rw [List.dropWhile_cons] at h
    split at h
    · exact ih c t h
    · next ha =>
      cases hb : p a with
      | false =>
        have : a = c := by injection h
        rw [← this]
        exact hb
      | true => exact absurd hb ha

/-- `dropWhile` is idempotent. -/
theorem dropWhile_idem (p : Char → Bool) (l : List Char) :
    (l.dropWhile p).dropWhile p = l.dropWhile p := by
  cases h : l.dropWhile p with
  | nil => rfl
  | cons c t =>
    rw [List.dropWhile_cons]
    simp [dropWhile_head_false p l c t h]

/-- Left-stripping after a right-strip of a left-stripped string changes
nothing. -/
theorem ltrim_rtrim_ltrim (z : List Char) :
    ltrimWS (rtrimWS (ltrimWS z)) = rtrimWS (ltrimWS z) := by
  cases hw : ltrimWS z with
  | nil => rfl
  | cons c t =>
    have hc : isPySpace c = false := dropWhile_head_false isPySpace z c t hw
    cases hr : rtrimWS (c :: t) with
    | nil => rfl
    | cons c2 t2 =>
      have hpre := rtrim_front (c :: t)
      rw [hr] at hpre
      obtain ⟨u, hu⟩ := hpre
      have hcc : c2 = c := by
        rw [List.cons_append] at hu
        injection hu
      subst hcc
      unfold ltrimWS
      rw [List.dropWhile_cons]
      simp [hc]

/-- Right-stripping is idempotent. -/
theorem rtrim_idem (w : List Char) : rtrimWS (rtrimWS w) = rtrimWS w := by
  unfold rtrimWS
  rw [List.reverse_reverse, dropWhile_idem]

/-- No-op form of the timestamp scrubber on clock-free strings. -/
theorem subTs_noop (l : List Char) (h : clockFreeB l = true) : subTs l = l := by
  unfold subTs subDel
  apply subDelF_noop
  intro s hs hsuf
  cases hm : eatPat tsRangePat s with
  | none => rfl
  | some r =>
    exfalso
    obtain ⟨m1, hm1, -⟩ := eatPat_append_split clockPat (arrowPat ++ clockPat) s r hm
    have hc : isClock12 (s.take 12) = true := eatPat_matches clockPat s m1 hm1
    rw [(clockFree_iff l).mp h s hsuf] at hc
    cases hc

/-- No-op form of the tag scrubber on strings without `<`. -/
theorem subTags_noop (l : List Char) (h : ('<' : Char) ∉ l) : subTags l = l := by
  unfold subTags subDel
  apply subDelF_noop
  intro s hs hsuf
  cases s with
  | nil => rfl
  | cons c cs =>
    have hc : (c == '<') = false := by
      rw [beq_eq_false_iff_ne]
      rintro rfl
      exact h (hsuf.subset (List.mem_cons_self _ _))
    simp [matchTag, hc]

/-- A successful literal match contains all the literal's characters. -/
theorem eatLit_mem (pat l r : List Char) (h : eatLit pat l = some r) :
    ∀ a ∈ pat, a ∈ l := by
  induction pat generalizing l with
  | nil => simp
  | cons p ps ih =>
    cases l with
    | nil => simp [eatLit] at h
    | cons c cs =>
      by_cases hp : (p == c) = true
      · simp only [eatLit, hp, if_true] at h
        intro a ha
        rcases List.mem_cons.mp ha with rfl | ha2
        · rw [beq_iff_eq] at hp
          rw [hp]
          exact List.mem_cons_self c cs
        · exact List.mem_cons_of_mem c (ih cs h a ha2)
      · simp [eatLit, hp] at h

/-- No-op form of the header scrubber on strings without newlines. -/
theorem subHeader_noop (l : List Char) (h : ('\n' : Char) ∉ l) : subHeader l = l := by
  unfold subHeader subDel
  apply subDelF_noop
  intro s hs hsuf
  cases hm : eatLit headerLit s with
  | none => rfl
  | some r =>
    exact absurd (hsuf.subset (eatLit_mem headerLit s r hm '\n' (by decide))) h

/-- No-op form of the newline collapser on strings without newlines. -/
theorem subNl_noop (l : List Char) (h : ('\n' : Char) ∉ l) : subNl l = l := by
  induction l with
  | nil => rfl
  | cons c cs ih =>
    have hc : (c == '\n') = false := by
      rw [beq_eq_false_iff_ne]
      rintro rfl
      exact h (List.mem_cons_self _ _)
    have ih2 := ih (fun hx => h (List.mem_cons_of_mem c hx))
    cases cs with
    | nil => simp [subNl, hc]
    | cons d ds => simp [subNl, hc, ih2]

/-- A successful digits-then-newline match requires a newline. -/
theorem eatDigitsNl_mem (l r : List Char) (h : eatDigitsNl l = some r) :
    ('\n' : Char) ∈ l := by
  induction l with
  | nil => simp [eatDigitsNl] at h
  | cons c cs ih =>
    by_cases hd : c.isDigit = true
    · simp only [eatDigitsNl, hd, if_true] at h
      exact List.mem_cons_of_mem c (ih h)
    · by_cases hn : (c == '\n') = true
      · rw [beq_iff_eq] at hn
        rw [hn]
        exact List.mem_cons_self _ _
      · simp [eatDigitsNl, hd, hn] at h

/-- No-op form of the line-number scanner on newline-free strings, for every
fuel and line-start flag. -/
theorem subLineNumsF_noop (l : List Char) (h : ('\n' : Char) ∉ l) :
    ∀ fuel b, subLineNumsF matchLineNum fuel b l = l := by
  induction l with
  | nil => intro fuel b; cases fuel <;> rfl
  | cons c cs ih =>
    intro fuel b
    cases fuel with
    | zero => rfl
    | succ n =>
      have hm : matchLineNum (c :: cs) = none := by
        unfold matchLineNum
        by_cases hd : c.isDigit = true
        · simp only [hd, if_true]
          cases he : eatDigitsNl cs with
          | none => rfl
          | some r =>
            exact absurd (List.mem_cons_of_mem c (eatDigitsNl_mem cs r he)) h
        · simp [hd]
      have ih2 := ih (fun hx => h (List.mem_cons_of_mem c hx))
      cases b with
      | true => simp [subLineNumsF, hm, ih2]
      | false => simp [subLineNumsF, ih2]

/-- No-op form of the line-number scrubber on strings without newlines. -/
theorem subLineNums_noop (l : List Char) (h : ('\n' : Char) ∉ l) : subLineNums l = l := by
  unfold subLineNums
  exact subLineNumsF_noop l h l.length true

/-- Claim C8, counterexample: the empty string contains no cue markup, yet
normalizing it twice differs from normalizing it once — the too-short
diagnostic embeds the raw input (here leaving a trailing space), which the
second pass strips. -/
theorem normalize_not_idempotent_on_empty :
    noCueMarkup [] = true ∧
    extract_text_from_vtt (extract_text_from_vtt []) ≠ extract_text_from_vtt [] := by
  refine ⟨rfl, by decide⟩

/-- Claim C8, amended: normalization is idempotent on flat input — no clock
timestamp, no `<`, no newline — whose cleaned text reaches the 10-character
minimum (the too-short diagnostic path re-embeds raw input and is not
idempotent, see the counterexample). -/
theorem normalize_idempotent_on_flat_success (x : List Char)
    (hflat : noCueMarkup x = true)
    (hlen : 10 ≤ (vttCleaned x).length) :
    extract_text_from_vtt (extract_text_from_vtt x) = extract_text_from_vtt x := by
  have hclock : clockFreeB x = true := by
    have h := hflat
    unfold noCueMarkup at h
    simp only [Bool.and_eq_true] at h
    exact h.1.1
  have hlt : ('<' : Char) ∉ x := by
    have h := hflat
    unfold noCueMarkup at h
    simp only [Bool.and_eq_true, Bool.not_eq_true'] at h
    intro hc
    have hct : x.contains '<' = true := List.elem_eq_true_of_mem hc
    rw [h.1.2] at hct
    cases hct
  have hnl : ('\n' : Char) ∉ x := by
    have h := hflat
    unfold noCueMarkup at h
    simp only [Bool.and_eq_true, Bool.not_eq_true'] at h
    intro hc
    have hct : x.contains '\n' = true := List.elem_eq_true_of_mem hc
    rw [h.2] at hct
    cases hct
  have hclean : vttCleaned x = stripWS (collapseWs x) := by
    unfold vttCleaned
    rw [subTs_noop x hclock, subTags_noop x hlt, subHeader_noop x hnl,
      subNl_noop x hnl, subLineNums_noop x hnl]
  have hlen2 : 10 ≤ (stripWS (collapseWs x)).length := by rw [← hclean]; exact hlen
  have hEx : extract_text_from_vtt x = stripWS (collapseWs x) := by
    unfold extract_text_from_vtt
    rw [hclean]
    rw [if_neg (by omega)]
  have hwsy : wsFlat (stripWS (collapseWs x)) = true :=
    wsFlat_pre _ _
      (wsFlat_suffix _ _ (wsFlat_collapse x) (List.dropWhile_suffix isPySpace))
      (rtrim_front _)
  have hcy : collapseWs (stripWS (collapseWs x)) = stripWS (collapseWs x) :=
    wsFlat_collapse_id _ hwsy
  have hsy : stripWS (stripWS (collapseWs x)) = stripWS (collapseWs x) := by
    show rtrimWS (ltrimWS (rtrimWS (ltrimWS (collapseWs x)))) =
      rtrimWS (ltrimWS (collapseWs x))
    rw [ltrim_rtrim_ltrim (collapseWs x)]
    exact rtrim_idem (ltrimWS (collapseWs x))
  have hclocky : clockFreeB (stripWS (collapseWs x)) = true :=
    clockFree_pre _ _
      (clockFree_suffix _ _ (clockFree_collapse x hclock) (List.dropWhile_suffix isPySpace))
      (rtrim_front _)
  have hlty : ('<' : Char) ∉ stripWS (collapseWs x) := by
    intro hc
    rcases mem_collapse '<' x (stripWS_subset (collapseWs x) '<' hc) with h1 | ⟨h3, -⟩
    · exact absurd h1 (by decide)
    · exact hlt h3
  have hnly : ('\n' : Char) ∉ stripWS (collapseWs x) := fun hc =>
    nl_not_mem_collapse x (stripWS_subset (collapseWs x) '\n' hc)
  have hcleany : vttCleaned (stripWS (collapseWs x)) = stripWS (collapseWs x) := by
    unfold vttCleaned
    rw [subTs_noop _ hclocky, subTags_noop _ hlty, subHeader_noop _ hnly,
      subNl_noop _ hnly, subLineNums_noop _ hnly, hcy, hsy]
  rw [hEx]
  unfold extract_text_from_vtt
  rw [hcleany]
  rw [if_neg (by omega)]

/-- Claim C8, witness: a flat 17-character text is a fixed point of two
normalizations. -/
theorem normalize_idempotent_witness :
    extract_text_from_vtt (extract_text_from_vtt ("hello there world".toList)) =
      extract_text_from_vtt ("hello there world".toList) :=
  normalize_idempotent_on_flat_success ("hello there world".toList) (by decide) (by decide)
